import Mathlib

/-!
Verification of the vector indexing and similarity-search core of the
acasrunner repository, shallowly embedded in Lean.

Python strings are modelled as lists of characters (`PyStr`), floating-point
vectors as lists of rationals (`Vec`), the external embedding provider as a
deterministic oracle `PyStr → Option Vec`, and the SQLite table backing the
vector store as a list of rows.  Fallible Python functions return `Option` or
a success flag, matching their `try/except` structure.
-/

namespace Acas

/-- A Python string, modelled as its list of characters. -/
abbrev PyStr := List Char

/-- An embedding vector; floating-point components are modelled exactly as
rationals. -/
abbrev Vec := List ℚ

/-! ### Chunker: `embedding_service.split_code_into_chunks`

The source splits `code` on newline characters, estimates a token cost of
`len(line) // 4` per line, and greedily packs whole lines into chunks,
flushing the current chunk when adding a line would exceed `max_tokens` and
the current chunk is non-empty.  Each chunk is the newline-join of its lines.
-/

/-- Token estimate for one line: `len(line) // 4` in the source. -/
def lineTokens (line : PyStr) : ℕ := line.length / 4

/-- The accumulation loop of `split_code_into_chunks`: remaining lines,
current chunk (as its list of lines, in order) and current token length.
Returns the list of chunks, each as its list of lines. -/
def chunkLinesGo (max_tokens : ℕ) :
    List PyStr → List PyStr → ℕ → List (List PyStr)
  | [], current_chunk, _ =>
      if current_chunk = [] then [] else [current_chunk]
  | line :: rest, current_chunk, current_length =>
      if current_length + lineTokens line > max_tokens ∧ current_chunk ≠ [] then
        current_chunk :: chunkLinesGo max_tokens rest [line] (lineTokens line)
      else
        chunkLinesGo max_tokens rest (current_chunk ++ [line])
          (current_length + lineTokens line)

/-- Model of `split_code_into_chunks(code, max_tokens)`: split on newlines,
pack lines greedily, and join each chunk's lines with a newline. -/
def split_code_into_chunks (code : PyStr) (max_tokens : ℕ) : List PyStr :=
  (chunkLinesGo max_tokens (List.splitOn '\n' code) [] 0).map
    (List.intercalate ['\n'])

lemma chunkLinesGo_flatten (M : ℕ) :
    ∀ (rest cur : List PyStr) (len : ℕ),
      (chunkLinesGo M rest cur len).flatten = cur ++ rest := by
  intro rest
  induction rest with
  | nil =>
      intro cur len
      by_cases h : cur = [] <;> simp [chunkLinesGo, h]
  | cons line rest ih =>
      intro cur len
      rw [chunkLinesGo]
      split
      · simp [ih]
      · simp [ih]

lemma chunkLinesGo_mem_ne_nil (M : ℕ) :
    ∀ (rest cur : List PyStr) (len : ℕ) (g : List PyStr),
      g ∈ chunkLinesGo M rest cur len → g ≠ [] := by
  intro rest
  induction rest with
  | nil =>
      intro cur len g hg
      by_cases h : cur = []
      · simp [chunkLinesGo, h] at hg
      · simp [chunkLinesGo, h] at hg
        simpa [hg] using h
  | cons line rest ih =>
      intro cur len g hg
      rw [chunkLinesGo] at hg
      split at hg
      · rcases List.mem_cons.mp hg with h | h
        · rename_i hcond
          simpa [h] using hcond.2
        · exact ih [line] (lineTokens line) g h
      · exact ih (cur ++ [line]) _ g hg

lemma chunkLinesGo_ne_nil (M : ℕ) :
    ∀ (rest cur : List PyStr) (len : ℕ), rest ≠ [] ∨ cur ≠ [] →
      chunkLinesGo M rest cur len ≠ [] := by
  intro rest
  induction rest with
  | nil =>
      intro cur len h
      rcases h with h | h
      · exact absurd rfl h
      · simp [chunkLinesGo, h]
  | cons line rest ih =>
      intro cur len _
      rw [chunkLinesGo]
      split
      · simp
      · exact ih (cur ++ [line]) _ (Or.inr (by simp))

lemma intercalate_cons_cons {α : Type} (s x y : List α) (t : List (List α)) :
    List.intercalate s (x :: y :: t) = x ++ s ++ List.intercalate s (y :: t) := by
  simp [List.intercalate]

lemma intercalate_cons_of_ne_nil {α : Type} (s x : List α) (t : List (List α))
    (ht : t ≠ []) :
    List.intercalate s (x :: t) = x ++ s ++ List.intercalate s t := by
  cases t with
  | nil => exact absurd rfl ht
  | cons y t => exact intercalate_cons_cons s x y t

lemma intercalate_append_of_ne_nil {α : Type} (s : List α) :
    ∀ (a b : List (List α)), a ≠ [] → b ≠ [] →
      List.intercalate s (a ++ b) =
        List.intercalate s a ++ s ++ List.intercalate s b := by
  intro a
  induction a with
  | nil => intro b ha _; exact absurd rfl ha
  | cons x a ih =>
      intro b _ hb
      have hab : a ++ b ≠ [] := fun h => hb (List.append_eq_nil.mp h).2
      have hL : List.intercalate s ((x :: a) ++ b) =
          x ++ s ++ List.intercalate s (a ++ b) := by
        rw [List.cons_append]
        exact intercalate_cons_of_ne_nil s x (a ++ b) hab
      by_cases ha : a = []
      · subst ha
        simp only [List.nil_append] at hL
        rw [hL]
        simp [List.intercalate]
      · rw [hL, ih b ha hb, intercalate_cons_of_ne_nil s x a ha]
        simp [List.append_assoc]

lemma flatten_ne_nil_of_mem_ne_nil {α : Type} (gs : List (List α))
    (hne : gs ≠ []) (h : ∀ g ∈ gs, g ≠ []) : gs.flatten ≠ [] := by
  intro hflat
  rcases List.exists_mem_of_ne_nil gs hne with ⟨g, hg⟩
  exact h g hg (List.flatten_eq_nil_iff.mp hflat g hg)

lemma intercalate_map_intercalate {α : Type} (s : List α) :
    ∀ (gs : List (List (List α))), (∀ g ∈ gs, g ≠ []) →
      List.intercalate s (gs.map (List.intercalate s)) =
        List.intercalate s gs.flatten := by
  intro gs
  induction gs with
  | nil => intro _; simp [List.intercalate]
  | cons g gs ih =>
      intro h
      cases gs with
      | nil => simp [List.intercalate]
      | cons g' gs' =>
          have hg : g ≠ [] := h g (by simp)
          have hrest : ∀ x ∈ g' :: gs', x ≠ [] := by
            intro x hx; exact h x (List.mem_cons_of_mem _ hx)
          have hflat : (g' :: gs').flatten ≠ [] :=
            flatten_ne_nil_of_mem_ne_nil _ (by simp) hrest
          have hmap : (g :: g' :: gs').map (List.intercalate s) =
              List.intercalate s g ::
                (g' :: gs').map (List.intercalate s) := by
            simp
          rw [hmap,
            intercalate_cons_of_ne_nil s _ _ (by simp),
            ih hrest]
          have hfl : (g :: g' :: gs').flatten = g ++ (g' :: gs').flatten := by
            simp
          rw [hfl, intercalate_append_of_ne_nil s g (g' :: gs').flatten hg hflat]

lemma splitOn_ne_nil {α : Type} [DecidableEq α] (x : α) (xs : List α) :
    List.splitOn x xs ≠ [] := by
  intro h
  have h2 := List.intercalate_splitOn xs x
  rw [h] at h2
  simp [List.intercalate] at h2
  subst h2
  rw [List.splitOn_nil] at h
  exact List.cons_ne_nil _ _ h

/-- C3: for every input text and every positive budget, joining the chunks
returned by `split_code_into_chunks` in order with newline separators
reproduces the input exactly (lossless, order-preserving, line-aligned). -/
theorem split_code_into_chunks_lossless (code : PyStr) (B : ℕ) (hB : 0 < B) :
    List.intercalate ['\n'] (split_code_into_chunks code B) = code := by
  unfold split_code_into_chunks
  rw [intercalate_map_intercalate ['\n'] _
    (fun g hg => chunkLinesGo_mem_ne_nil B (List.splitOn '\n' code) [] 0 g hg)]
  rw [chunkLinesGo_flatten]
  rw [List.nil_append]
  exact List.intercalate_splitOn code '\n'

/-- Witness for C3 at a concrete input. -/
theorem split_code_into_chunks_lossless_witness :
    List.intercalate ['\n'] (split_code_into_chunks ['a', '\n', 'b', 'c'] 2) =
      ['a', '\n', 'b', 'c'] :=
  split_code_into_chunks_lossless ['a', '\n', 'b', 'c'] 2 (by decide)

/-- C10: for every input text, including the empty one,
`split_code_into_chunks` returns a non-empty list of chunks, and splitting
the empty string yields exactly one chunk, the empty string. -/
theorem split_code_into_chunks_nonempty :
    (∀ (code : PyStr) (B : ℕ), 0 < (split_code_into_chunks code B).length) ∧
      ∀ B : ℕ, split_code_into_chunks [] B = [[]] := by
  constructor
  · intro code B
    have h := chunkLinesGo_ne_nil B (List.splitOn '\n' code) [] 0
      (Or.inl (splitOn_ne_nil '\n' code))
    have : split_code_into_chunks code B ≠ [] := by
      unfold split_code_into_chunks
      simpa using h
    exact List.length_pos.mpr this
  · intro B
    unfold split_code_into_chunks
    simp [chunkLinesGo, lineTokens, List.intercalate]

/-! ### Embedder and cache: `NomicEmbeddingService`

The source keeps a process-wide dictionary `embedding_cache` keyed by the
hex digest of a content hash of the text.  The external embedding provider
is modelled as a deterministic oracle `provider : PyStr → Option Vec`
(`none` covers transport failures, timeouts and non-200 responses, all of
which the source maps to returning `None`).  The hash function is kept
abstract as a parameter `hash : PyStr → PyStr`.  `embed_single` returns the
result, the updated service state, and the number of provider calls made. -/

/-- The in-memory embedding cache, an association list keyed by text hash. -/
structure EmbeddingService where
  embedding_cache : List (PyStr × Vec)
deriving DecidableEq

/-- Dictionary lookup in the embedding cache. -/
def cacheLookup (cache : List (PyStr × Vec)) (k : PyStr) : Option Vec :=
  (cache.find? (fun e => e.1 == k)).map Prod.snd

/-- Model of `embed_single(text)`: check the cache under the content hash;
on a hit return the cached vector with no provider call; on a miss call the
provider, cache a successful result, and return `none` on failure.  The
third component counts provider calls (0 or 1). -/
def embed_single (hash : PyStr → PyStr) (provider : PyStr → Option Vec)
    (svc : EmbeddingService) (text : PyStr) :
    Option Vec × EmbeddingService × ℕ :=
  let text_hash := hash text
  match cacheLookup svc.embedding_cache text_hash with
  | some v => (some v, svc, 0)
  | none =>
    match provider text with
    | some embedding =>
        (some embedding, ⟨(text_hash, embedding) :: svc.embedding_cache⟩, 1)
    | none => (none, svc, 1)

/-- One gathered group of `embed_single` tasks, executed in input order with
the service state threaded through; each item's result is kept in place. -/
def embed_tasks (hash : PyStr → PyStr) (provider : PyStr → Option Vec) :
    EmbeddingService → List PyStr → List (Option Vec) × EmbeddingService
  | svc, [] => ([], svc)
  | svc, t :: ts =>
    let r := embed_single hash provider svc t
    let rest := embed_tasks hash provider r.2.1 ts
    (r.1 :: rest.1, rest.2)

/-- The slicing loop of `embed_batch`: process `batch_size`-sized groups of
the input in order.  Requires a positive batch size for termination, which
matches the `ValueError` Python raises on a zero step. -/
def embedBatchGo (hash : PyStr → PyStr) (provider : PyStr → Option Vec)
    (batch_size : ℕ) (hbs : 0 < batch_size) :
    EmbeddingService → List PyStr → List (Option Vec) × EmbeddingService
  | svc, [] => ([], svc)
  | svc, t :: ts =>
    let r := embed_tasks hash provider svc ((t :: ts).take batch_size)
    let rest := embedBatchGo hash provider batch_size hbs r.2
      ((t :: ts).drop batch_size)
    (r.1 ++ rest.1, rest.2)
termination_by _ ts => ts.length
decreasing_by
  simp only [List.length_drop, List.length_cons]
  omega

/-- Model of `embed_batch(texts, batch_size)`.  `none` models the
`ValueError` Python raises when the slice step `batch_size` is zero. -/
def embed_batch (hash : PyStr → PyStr) (provider : PyStr → Option Vec)
    (svc : EmbeddingService) (texts : List PyStr) (batch_size : ℕ) :
    Option (List (Option Vec) × EmbeddingService) :=
  if h : 0 < batch_size then
    some (embedBatchGo hash provider batch_size h svc texts)
  else none

/-- C5: on a freshly constructed service, a first successful
`embed_single(T)` calls the provider once, and a second `embed_single(T)`
returns the cached vector with no provider call: one call across the two. -/
theorem embed_single_second_call_cached (hash : PyStr → PyStr)
    (provider : PyStr → Option Vec) (text : PyStr) (v : Vec)
    (hp : provider text = some v) :
    (embed_single hash provider ⟨[]⟩ text).1 = some v ∧
      (embed_single hash provider
        (embed_single hash provider ⟨[]⟩ text).2.1 text).1 = some v ∧
      (embed_single hash provider
        (embed_single hash provider ⟨[]⟩ text).2.1 text).2.2 = 0 ∧
      (embed_single hash provider ⟨[]⟩ text).2.2 +
        (embed_single hash provider
          (embed_single hash provider ⟨[]⟩ text).2.1 text).2.2 = 1 := by
  simp [embed_single, cacheLookup, hp]

/-- Witness for C5 at a concrete provider and text. -/
theorem embed_single_second_call_cached_witness :
    (embed_single (fun t => t) (fun _ => some [1]) ⟨[]⟩ ['a']).1 = some [1] ∧
      (embed_single (fun t => t) (fun _ => some [1])
        (embed_single (fun t => t) (fun _ => some [1]) ⟨[]⟩ ['a']).2.1
        ['a']).1 = some [1] ∧
      (embed_single (fun t => t) (fun _ => some [1])
        (embed_single (fun t => t) (fun _ => some [1]) ⟨[]⟩ ['a']).2.1
        ['a']).2.2 = 0 ∧
      (embed_single (fun t => t) (fun _ => some [1]) ⟨[]⟩ ['a']).2.2 +
        (embed_single (fun t => t) (fun _ => some [1])
          (embed_single (fun t => t) (fun _ => some [1]) ⟨[]⟩ ['a']).2.1
          ['a']).2.2 = 1 :=
  embed_single_second_call_cached (fun t => t) (fun _ => some [1]) ['a'] [1] rfl

lemma embed_single_of_not_cached (hash : PyStr → PyStr)
    (provider : PyStr → Option Vec) (svc : EmbeddingService) (text : PyStr)
    (h : cacheLookup svc.embedding_cache (hash text) = none) :
    (embed_single hash provider svc text).1 = provider text := by
  cases hp : provider text <;> simp [embed_single, h, hp]

lemma cacheLookup_embed_single (hash : PyStr → PyStr)
    (provider : PyStr → Option Vec) (svc : EmbeddingService) (text : PyStr)
    (k : PyStr) (hk : k ≠ hash text)
    (h : cacheLookup svc.embedding_cache k = none) :
    cacheLookup (embed_single hash provider svc text).2.1.embedding_cache k
      = none := by
  rcases hc : cacheLookup svc.embedding_cache (hash text) with _ | v
  · rcases hp : provider text with _ | emb
    · have h2 : (embed_single hash provider svc text).2.1 = svc := by
        simp [embed_single, hc, hp]
      rw [h2]; exact h
    · have h2 : (embed_single hash provider svc text).2.1 =
          ⟨(hash text, emb) :: svc.embedding_cache⟩ := by
        simp [embed_single, hc, hp]
      have hbe : ((hash text : PyStr) == k) = false :=
        beq_eq_false_iff_ne.mpr (Ne.symm hk)
      rw [h2]
      simp only [cacheLookup, List.find?, hbe]
      simpa [cacheLookup] using h
  · have h2 : (embed_single hash provider svc text).2.1 = svc := by
      simp [embed_single, hc]
    rw [h2]; exact h

lemma embed_tasks_map (hash : PyStr → PyStr) (provider : PyStr → Option Vec) :
    ∀ (texts : List PyStr) (svc : EmbeddingService),
      texts.Pairwise (fun a b => hash a ≠ hash b) →
      (∀ t ∈ texts, cacheLookup svc.embedding_cache (hash t) = none) →
      (embed_tasks hash provider svc texts).1 = texts.map provider := by
  intro texts
  induction texts with
  | nil => intro svc _ _; simp [embed_tasks]
  | cons t ts ih =>
      intro svc hdist hfresh
      have ht : cacheLookup svc.embedding_cache (hash t) = none :=
        hfresh t (by simp)
      have hrest : ∀ u ∈ ts,
          cacheLookup (embed_single hash provider svc t).2.1.embedding_cache
            (hash u) = none := by
        intro u hu
        exact cacheLookup_embed_single hash provider svc t (hash u)
          ((List.pairwise_cons.mp hdist).1 u hu).symm
          (hfresh u (List.mem_cons_of_mem _ hu))
      simp only [embed_tasks, List.map_cons]
      rw [embed_single_of_not_cached hash provider svc t ht,
        ih _ (List.pairwise_cons.mp hdist).2 hrest]

lemma embed_tasks_length (hash : PyStr → PyStr)
    (provider : PyStr → Option Vec) :
    ∀ (texts : List PyStr) (svc : EmbeddingService),
      (embed_tasks hash provider svc texts).1.length = texts.length := by
  intro texts
  induction texts with
  | nil => intro svc; simp [embed_tasks]
  | cons t ts ih => intro svc; simp [embed_tasks, ih]

lemma embed_tasks_append (hash : PyStr → PyStr)
    (provider : PyStr → Option Vec) :
    ∀ (l₁ l₂ : List PyStr) (svc : EmbeddingService),
      embed_tasks hash provider svc (l₁ ++ l₂) =
        ((embed_tasks hash provider svc l₁).1 ++
            (embed_tasks hash provider
              (embed_tasks hash provider svc l₁).2 l₂).1,
          (embed_tasks hash provider
            (embed_tasks hash provider svc l₁).2 l₂).2) := by
  intro l₁
  induction l₁ with
  | nil => intro l₂ svc; simp [embed_tasks]
  | cons t ts ih => intro l₂ svc; simp [embed_tasks, ih]

lemma embedBatchGo_eq_embed_tasks (hash : PyStr → PyStr)
    (provider : PyStr → Option Vec) (bs : ℕ) (hbs : 0 < bs) :
    ∀ (n : ℕ) (texts : List PyStr) (svc : EmbeddingService),
      texts.length ≤ n →
      embedBatchGo hash provider bs hbs svc texts =
        embed_tasks hash provider svc texts := by
  intro n
  induction n with
  | zero =>
      intro texts svc hn
      rw [List.eq_nil_of_length_eq_zero (Nat.le_zero.mp hn)]
      simp [embedBatchGo, embed_tasks]
  | succ n ih =>
      intro texts svc hn
      cases texts with
      | nil => simp [embedBatchGo, embed_tasks]
      | cons t ts =>
          rw [embedBatchGo]
          have hlen : ((t :: ts).drop bs).length ≤ n := by
            simp only [List.length_drop, List.length_cons]
            simp only [List.length_cons] at hn
            omega
          rw [ih _ _ hlen]
          conv_rhs => rw [← List.take_append_drop bs (t :: ts)]
          rw [embed_tasks_append]

/-- C6: `embed_batch` returns exactly one result per input in the original
input order.  For any inputs the result list has the length of the input
list; and when the texts have pairwise-distinct hashes and none is cached,
the result is exactly the pointwise provider outcome for each text — a
failure on one item is marked in place and never aborts the batch or
affects any other item. -/
theorem embed_batch_ordered_independent (hash : PyStr → PyStr)
    (provider : PyStr → Option Vec) (svc : EmbeddingService)
    (texts : List PyStr) (bs : ℕ) (hbs : 0 < bs)
    (hdist : texts.Pairwise (fun a b => hash a ≠ hash b))
    (hfresh : ∀ t ∈ texts, cacheLookup svc.embedding_cache (hash t) = none) :
    (∀ (texts2 : List PyStr) (svc2 : EmbeddingService)
        (rs : List (Option Vec)) (svc3 : EmbeddingService),
        embed_batch hash provider svc2 texts2 bs = some (rs, svc3) →
        rs.length = texts2.length) ∧
      ∃ svcEnd : EmbeddingService,
        embed_batch hash provider svc texts bs =
          some (texts.map provider, svcEnd) := by
  constructor
  · intro texts2 svc2 rs svc3 h
    rw [embed_batch, dif_pos hbs] at h
    rw [embedBatchGo_eq_embed_tasks hash provider bs hbs texts2.length texts2
      svc2 le_rfl] at h
    have h2 : embed_tasks hash provider svc2 texts2 = (rs, svc3) :=
      Option.some_inj.mp h
    have h3 := embed_tasks_length hash provider texts2 svc2
    rw [h2] at h3
    exact h3
  · refine ⟨(embed_tasks hash provider svc texts).2, ?_⟩
    rw [embed_batch, dif_pos hbs,
      embedBatchGo_eq_embed_tasks hash provider bs hbs texts.length texts svc
        le_rfl,
      ← embed_tasks_map hash provider texts svc hdist hfresh]

/-- Witness for C6: three texts where the provider fails exactly on the
second; the batch returns a 3-element sequence with exactly the second
entry failed, in the original order. -/
theorem embed_batch_ordered_independent_witness :
    ∃ svcEnd : EmbeddingService,
      embed_batch (fun t => t)
        (fun t => if t = ['b'] then none else some [1])
        ⟨[]⟩ [['a'], ['b'], ['c']] 10 =
        some ([some [1], none, some [1]], svcEnd) := by
  have h := (embed_batch_ordered_independent (fun t => t)
    (fun t => if t = ['b'] then none else some [1])
    ⟨[]⟩ [['a'], ['b'], ['c']] 10 (by decide) (by decide)
    (by intro t ht; simp [cacheLookup])).2
  simpa using h

/-! ### Vector store: `VectorService`

The SQLite table `code_embeddings` is modelled as a list of rows.  Its
schema declares `code_embedding FLOAT[384]` with `file_id TEXT PRIMARY KEY`,
so the engine rejects an insert whose vector length differs from 384
(`index_code_snippet` catches the raised error and returns `False`, leaving
the table unchanged), and `INSERT OR REPLACE` replaces the whole row with
the same `file_id`.  Cosine distance (`vec_distance_cosine`, accelerated
path) and cosine similarity (the numpy fallback) are kept abstract as
parameters `dist` and `sim`, since their values are irrational in general;
the accelerated path converts via `similarity = 1 - distance` exactly as
the source does. -/

/-- One row of the `code_embeddings` table. -/
structure CodeRow where
  file_id : PyStr
  code_embedding : Vec
  file_type : PyStr
  language : PyStr
  project_id : PyStr
  last_modified : ℤ
  source_code : PyStr
  file_path : PyStr
  function_name : Option PyStr
  context_info : PyStr
deriving DecidableEq

/-- The optional `metadata` dictionary passed to `index_code_snippet`;
`context_info` stands for the JSON-dumped value when present. -/
structure Metadata where
  file_type : Option PyStr
  function_name : Option PyStr
  context_info : Option PyStr
deriving DecidableEq

/-- The fixed vector dimension declared by the table schema. -/
def tableDim : ℕ := 384

/-- Formatting performed by `embed_code_snippet`: a language header, an
optional context header, then the code. -/
def format_code_text (code language context : PyStr) : PyStr :=
  ("Language: ".toList ++ language ++ ['\n']) ++
    (if context = [] then [] else "Context: ".toList ++ context ++ ['\n']) ++
    ("Code:\n".toList ++ code)

/-- Model of `embed_code_snippet(code, language, context)`. -/
def embed_code_snippet (hash : PyStr → PyStr) (provider : PyStr → Option Vec)
    (svc : EmbeddingService) (code language context : PyStr) :
    Option Vec × EmbeddingService × ℕ :=
  embed_single hash provider svc (format_code_text code language context)

/-- The `file_id` primary key: `f"{project_id}:{file_path}"`. -/
def mkFileId (project_id file_path : PyStr) : PyStr :=
  project_id ++ [':'] ++ file_path

/-- The row written by `index_code_snippet`. -/
def mkRow (file_path content language project_id : PyStr)
    (metadata : Option Metadata) (embedding : Vec) (now : ℤ) : CodeRow where
  file_id := mkFileId project_id file_path
  code_embedding := embedding
  file_type :=
    match metadata with
    | some m => m.file_type.getD language
    | none => language
  language := language
  project_id := project_id
  last_modified := now
  source_code := content
  file_path := file_path
  function_name :=
    match metadata with
    | some m => m.function_name
    | none => none
  context_info :=
    match metadata with
    | some m => m.context_info.getD ("\x7b\x7d".toList)
    | none => "\x7b\x7d".toList

/-- Semantics of `INSERT OR REPLACE` on a table with `file_id` as primary
key: the previous row with that key is dropped and the new row inserted. -/
def insertOrReplace (db : List CodeRow) (r : CodeRow) : List CodeRow :=
  db.filter (fun row => !(row.file_id == r.file_id)) ++ [r]

/-- Result of one `index_code_snippet` call: the returned boolean, the
embedder state, the table afterwards, and how many times the call attempted
to load the accelerated extension. -/
structure IndexOutput where
  ok : Bool
  svc : EmbeddingService
  db : List CodeRow
  probes : ℕ
deriving DecidableEq

/-- Model of `index_code_snippet(file_path, content, language, project_id,
metadata)` at time `now`.  It embeds the formatted snippet; a falsy
embedding (`None` or `[]`) returns `False` before touching the database;
otherwise the call opens a connection, attempts to load the `vec0`
extension once (ignoring failure), and runs `INSERT OR REPLACE`, which the
engine rejects when the vector length is not 384 — the raised error is
caught and the call returns `False` with the table unchanged. -/
def index_code_snippet (hash : PyStr → PyStr) (provider : PyStr → Option Vec)
    (svc : EmbeddingService) (db : List CodeRow)
    (file_path content language project_id : PyStr)
    (metadata : Option Metadata) (now : ℤ) : IndexOutput :=
  let e := embed_code_snippet hash provider svc content language
    ("File: ".toList ++ file_path)
  match e.1 with
  | none => ⟨false, e.2.1, db, 0⟩
  | some embedding =>
    if embedding = [] then ⟨false, e.2.1, db, 0⟩
    else if embedding.length = tableDim then
      ⟨true, e.2.1,
        insertOrReplace db
          (mkRow file_path content language project_id metadata embedding now),
        1⟩
    else ⟨false, e.2.1, db, 1⟩

/-- C4: an upsert whose embedding vector length differs from the table
dimension 384 returns `False` for that single call and leaves the stored
table unchanged: the vector is neither truncated nor padded, and no
mismatched row becomes visible to queries. -/
theorem index_code_snippet_rejects_bad_dim (hash : PyStr → PyStr)
    (provider : PyStr → Option Vec) (svc : EmbeddingService)
    (db : List CodeRow) (file_path content language project_id : PyStr)
    (metadata : Option Metadata) (now : ℤ) (e : Vec)
    (he : (embed_code_snippet hash provider svc content language
      ("File: ".toList ++ file_path)).1 = some e)
    (hlen : e.length ≠ tableDim) :
    (index_code_snippet hash provider svc db file_path content language
        project_id metadata now).ok = false ∧
      (index_code_snippet hash provider svc db file_path content language
        project_id metadata now).db = db := by
  simp only [index_code_snippet]
  rw [he]
  by_cases hne : e = [] <;> simp [hne, hlen]

/-- Witness for C4: a provider returning a 3-dimensional vector. -/
theorem index_code_snippet_rejects_bad_dim_witness :
    (index_code_snippet (fun t => t) (fun _ => some [1, 2, 3]) ⟨[]⟩ []
        ['a'] ['b'] ['p', 'y'] ['p'] none 0).ok = false ∧
      (index_code_snippet (fun t => t) (fun _ => some [1, 2, 3]) ⟨[]⟩ []
        ['a'] ['b'] ['p', 'y'] ['p'] none 0).db = [] :=
  index_code_snippet_rejects_bad_dim (fun t => t) (fun _ => some [1, 2, 3])
    ⟨[]⟩ [] ['a'] ['b'] ['p', 'y'] ['p'] none 0 [1, 2, 3]
    (by simp [embed_code_snippet, embed_single, cacheLookup])
    (by decide)

lemma mkRow_file_id (fp c lang pid : PyStr) (md : Option Metadata) (e : Vec)
    (t : ℤ) : (mkRow fp c lang pid md e t).file_id = mkFileId pid fp := rfl

lemma insertOrReplace_filter_key (db : List CodeRow) (row : CodeRow)
    (k : PyStr) (h : row.file_id = k) :
    (insertOrReplace db row).filter (fun r => r.file_id == k) = [row] := by
  subst h
  simp [insertOrReplace, List.filter_append, List.filter_filter]

lemma insertOrReplace_filter_other (db : List CodeRow) (row : CodeRow)
    (k : PyStr) (h : row.file_id = k) :
    (insertOrReplace db row).filter (fun r => !(r.file_id == k)) =
      db.filter (fun r => !(r.file_id == k)) := by
  subst h
  simp [insertOrReplace, List.filter_append, List.filter_filter]

/-- C7: upserting the same key `(project_id, file_path)` twice leaves
exactly one record visible under that key — the one from the second write,
with its vector and payload fully replacing the first — and all records
under other keys are untouched. -/
theorem index_code_snippet_upsert_replaces (hash : PyStr → PyStr)
    (provider : PyStr → Option Vec) (svc : EmbeddingService)
    (db : List CodeRow) (fp c1 c2 lang pid : PyStr)
    (md1 md2 : Option Metadata) (t1 t2 : ℤ) (e1 e2 : Vec)
    (h1 : (embed_code_snippet hash provider svc c1 lang
      ("File: ".toList ++ fp)).1 = some e1)
    (hl1 : e1.length = tableDim)
    (h2 : (embed_code_snippet hash provider
      (index_code_snippet hash provider svc db fp c1 lang pid md1 t1).svc
      c2 lang ("File: ".toList ++ fp)).1 = some e2)
    (hl2 : e2.length = tableDim) :
    (index_code_snippet hash provider svc db fp c1 lang pid md1 t1).ok
        = true ∧
      (index_code_snippet hash provider
        (index_code_snippet hash provider svc db fp c1 lang pid md1 t1).svc
        (index_code_snippet hash provider svc db fp c1 lang pid md1 t1).db
        fp c2 lang pid md2 t2).ok = true ∧
      ((index_code_snippet hash provider
        (index_code_snippet hash provider svc db fp c1 lang pid md1 t1).svc
        (index_code_snippet hash provider svc db fp c1 lang pid md1 t1).db
        fp c2 lang pid md2 t2).db.filter
          (fun r => r.file_id == mkFileId pid fp)) =
        [mkRow fp c2 lang pid md2 e2 t2] ∧
      ((index_code_snippet hash provider
        (index_code_snippet hash provider svc db fp c1 lang pid md1 t1).svc
        (index_code_snippet hash provider svc db fp c1 lang pid md1 t1).db
        fp c2 lang pid md2 t2).db.filter
          (fun r => !(r.file_id == mkFileId pid fp))) =
        db.filter (fun r => !(r.file_id == mkFileId pid fp)) := by
  have hne1 : ¬ e1 = [] := by
    intro h; rw [h] at hl1; simp [tableDim] at hl1
  have hne2 : ¬ e2 = [] := by
    intro h; rw [h] at hl2; simp [tableDim] at hl2
  have hr1 : index_code_snippet hash provider svc db fp c1 lang pid md1 t1 =
      ⟨true,
        (embed_code_snippet hash provider svc c1 lang
          ("File: ".toList ++ fp)).2.1,
        insertOrReplace db (mkRow fp c1 lang pid md1 e1 t1), 1⟩ := by
    simp only [index_code_snippet]
    rw [h1]
    simp [hne1, hl1]
  rw [hr1] at h2
  have hr2 : index_code_snippet hash provider
      (embed_code_snippet hash provider svc c1 lang
        ("File: ".toList ++ fp)).2.1
      (insertOrReplace db (mkRow fp c1 lang pid md1 e1 t1))
      fp c2 lang pid md2 t2 =
      ⟨true,
        (embed_code_snippet hash provider
          (embed_code_snippet hash provider svc c1 lang
            ("File: ".toList ++ fp)).2.1 c2 lang
          ("File: ".toList ++ fp)).2.1,
        insertOrReplace (insertOrReplace db (mkRow fp c1 lang pid md1 e1 t1))
          (mkRow fp c2 lang pid md2 e2 t2), 1⟩ := by
    simp only [index_code_snippet]
    rw [h2]
    simp [hne2, hl2]
  rw [hr1, hr2]
  refine ⟨rfl, rfl, ?_, ?_⟩
  · exact insertOrReplace_filter_key _ _ _ (mkRow_file_id fp c2 lang pid md2 e2 t2)
  · rw [insertOrReplace_filter_other _ _ _
        (mkRow_file_id fp c2 lang pid md2 e2 t2),
      insertOrReplace_filter_other _ _ _
        (mkRow_file_id fp c1 lang pid md1 e1 t1)]

set_option maxRecDepth 4000 in
/-- Witness for C7 at concrete inputs: two writes to the same key with
different payloads leave exactly the second row visible under that key. -/
theorem index_code_snippet_upsert_replaces_witness :
    ((index_code_snippet (fun t => t) (fun _ => some (List.replicate 384 1))
      (index_code_snippet (fun t => t) (fun _ => some (List.replicate 384 1))
        ⟨[]⟩ [] ['a'] ['x'] ['p', 'y'] ['p'] none 0).svc
      (index_code_snippet (fun t => t) (fun _ => some (List.replicate 384 1))
        ⟨[]⟩ [] ['a'] ['x'] ['p', 'y'] ['p'] none 0).db
      ['a'] ['y'] ['p', 'y'] ['p'] none 1).db.filter
        (fun r => r.file_id == mkFileId ['p'] ['a'])) =
      [mkRow ['a'] ['y'] ['p', 'y'] ['p'] none (List.replicate 384 1) 1] :=
  (index_code_snippet_upsert_replaces (fun t => t)
    (fun _ => some (List.replicate 384 1)) ⟨[]⟩ [] ['a'] ['x'] ['y']
    ['p', 'y'] ['p'] none none 0 1 (List.replicate 384 1)
    (List.replicate 384 1)
    (by rfl)
    (by rw [List.length_replicate]; rfl)
    (by rfl)
    (by rw [List.length_replicate]; rfl)).2.2.1

/-! ### Search engine: `search_similar_code` and its two retrieval paths

`search_similar_code` embeds the query; a falsy embedding returns `[]`
before any database work.  Otherwise it opens a connection and attempts
`SELECT load_extension('vec0')` — one probe per call.  If the extension is
available the accelerated SQL path runs (order by cosine distance
ascending, `LIMIT` server-side, then `similarity = 1 - distance` and a
threshold post-filter in Python); if the attempt raises, the in-memory
fallback runs instead (cosine similarity per row, threshold filter, stable
descending sort, then truncation to `limit`). -/

/-- A search result dictionary. -/
structure SearchResult where
  file_path : PyStr
  content : PyStr
  language : PyStr
  function_name : Option PyStr
  context_info : PyStr
  similarity : ℚ
deriving DecidableEq

/-- The result payload built from a row and its similarity score. -/
def mkResult (r : CodeRow) (s : ℚ) : SearchResult :=
  ⟨r.file_path, r.source_code, r.language, r.function_name, r.context_info, s⟩

/-- The dynamic WHERE clause shared by both retrieval paths: a filter
applies only when the corresponding argument is present and non-empty
(Python truthiness of the optional string). -/
def rowMatches (project_id language : Option PyStr) (r : CodeRow) : Bool :=
  (match project_id with
    | some p => if p = [] then true else r.project_id == p
    | none => true) &&
  (match language with
    | some l => if l = [] then true else r.language == l
    | none => true)

/-- Accelerated path of `search_similar_code`: cosine distance per matching
row, ordered ascending (stably), limited server-side, then converted to
`similarity = 1 - distance` with a threshold post-filter. -/
def acceleratedSearch (dist : Vec → Vec → ℚ) (db : List CodeRow) (q : Vec)
    (project_id language : Option PyStr) (limit : ℕ) (threshold : ℚ) :
    List SearchResult :=
  (((db.filter (rowMatches project_id language)).mergeSort
      (fun r1 r2 =>
        decide (dist r1.code_embedding q ≤ dist r2.code_embedding q))).take
        limit).filterMap
    (fun r =>
      if threshold ≤ 1 - dist r.code_embedding q then
        some (mkResult r (1 - dist r.code_embedding q))
      else none)

/-- Fallback path `_fallback_similarity_search`: load all matching rows,
compute cosine similarity in memory, keep rows at or above the threshold,
sort stably by similarity descending, truncate to the limit. -/
def fallback_similarity_search (sim : Vec → Vec → ℚ) (db : List CodeRow)
    (q : Vec) (project_id language : Option PyStr) (limit : ℕ)
    (threshold : ℚ) : List SearchResult :=
  ((((db.filter (rowMatches project_id language)).filter
      (fun r => decide (threshold ≤ sim q r.code_embedding))).mergeSort
      (fun r1 r2 =>
        decide (sim q r2.code_embedding ≤ sim q r1.code_embedding))).take
      limit).map
    (fun r => mkResult r (sim q r.code_embedding))

/-- Result of one `search_similar_code` call: the returned list, the
embedder state, and how many times the call attempted to load the
accelerated extension. -/
structure SearchOutput where
  results : List SearchResult
  svc : EmbeddingService
  probes : ℕ

/-- Model of `search_similar_code(query, project_id, language, limit,
threshold)`.  `vecAvailable` says whether the `vec0` extension loads on
this call's connection; the load is attempted (one probe) on every call
that reaches the database, and the retrieval path is chosen per call from
its outcome. -/
def search_similar_code (hash : PyStr → PyStr) (provider : PyStr → Option Vec)
    (dist sim : Vec → Vec → ℚ) (vecAvailable : Bool)
    (svc : EmbeddingService) (db : List CodeRow) (query : PyStr)
    (project_id language : Option PyStr) (limit : ℕ) (threshold : ℚ) :
    SearchOutput :=
  let e := embed_single hash provider svc query
  match e.1 with
  | none => ⟨[], e.2.1, 0⟩
  | some query_embedding =>
    if query_embedding = [] then ⟨[], e.2.1, 0⟩
    else if vecAvailable then
      ⟨acceleratedSearch dist db query_embedding project_id language limit
        threshold, e.2.1, 1⟩
    else
      ⟨fallback_similarity_search sim db query_embedding project_id language
        limit threshold, e.2.1, 1⟩

/-- C8: when embedding the query fails, `search_similar_code` returns an
empty result list — the caller observes zero results, not a failure. -/
theorem search_similar_code_empty_on_embed_failure (hash : PyStr → PyStr)
    (provider : PyStr → Option Vec) (dist sim : Vec → Vec → ℚ)
    (vecAvailable : Bool) (svc : EmbeddingService) (db : List CodeRow)
    (query : PyStr) (project_id language : Option PyStr) (limit : ℕ)
    (threshold : ℚ)
    (h : (embed_single hash provider svc query).1 = none) :
    (search_similar_code hash provider dist sim vecAvailable svc db query
      project_id language limit threshold).results = [] := by
  simp only [search_similar_code]
  rw [h]

/-- Witness for C8: a provider that always fails. -/
theorem search_similar_code_empty_on_embed_failure_witness :
    (search_similar_code (fun t => t) (fun _ => none) (fun _ _ => 0)
      (fun _ _ => 0) true ⟨[]⟩ [] ['q'] none none 10 (7 / 10)).results = [] :=
  search_similar_code_empty_on_embed_failure (fun t => t) (fun _ => none)
    (fun _ _ => 0) (fun _ _ => 0) true ⟨[]⟩ [] ['q'] none none 10 (7 / 10)
    rfl

/-- C9 counterexample: the claim says the accelerated-capability probe
happens exactly once at initialization and is never re-attempted on a later
query.  In the code, every `search_similar_code` call opens a fresh
connection and attempts `SELECT load_extension('vec0')` again: here a
search call performed while the extension is unavailable (exactly the
situation after an init-time load failure) still makes one load attempt. -/
theorem search_similar_code_reprobes_counterexample :
    (search_similar_code (fun t => t) (fun _ => some [1]) (fun _ _ => 0)
      (fun _ _ => 0) false ⟨[]⟩ [] ['q'] none none 10 (7 / 10)).probes
      = 1 := rfl

/-- C9 amended: the extension load is attempted again on every search call
that reaches the database — one probe per call, not a one-time
initialization probe — and the retrieval path is selected per call from
that call's outcome: fallback when the load fails on this call, accelerated
when it succeeds. -/
theorem search_similar_code_probes_every_call (hash : PyStr → PyStr)
    (provider : PyStr → Option Vec) (dist sim : Vec → Vec → ℚ)
    (vecAvailable : Bool) (svc : EmbeddingService) (db : List CodeRow)
    (query : PyStr) (project_id language : Option PyStr) (limit : ℕ)
    (threshold : ℚ) (qe : Vec)
    (h : (embed_single hash provider svc query).1 = some qe)
    (hne : qe ≠ []) :
    (search_similar_code hash provider dist sim vecAvailable svc db query
        project_id language limit threshold).probes = 1 ∧
      (search_similar_code hash provider dist sim vecAvailable svc db query
        project_id language limit threshold).results =
        (if vecAvailable then
          acceleratedSearch dist db qe project_id language limit threshold
        else
          fallback_similarity_search sim db qe project_id language limit
            threshold) := by
  simp only [search_similar_code]
  rw [h]
  cases vecAvailable <;> simp [hne]

/-- Witness for the amended C9 at a concrete later-than-init search call. -/
theorem search_similar_code_probes_every_call_witness :
    (search_similar_code (fun t => t) (fun _ => some [2]) (fun _ _ => 0)
        (fun _ _ => 0) false ⟨[]⟩ [] ['r'] none none 5 (1 / 2)).probes = 1 ∧
      (search_similar_code (fun t => t) (fun _ => some [2]) (fun _ _ => 0)
        (fun _ _ => 0) false ⟨[]⟩ [] ['r'] none none 5 (1 / 2)).results =
        (if false then
          acceleratedSearch (fun _ _ => 0) [] [2] none none 5 (1 / 2)
        else
          fallback_similarity_search (fun _ _ => 0) [] [2] none none 5
            (1 / 2)) :=
  search_similar_code_probes_every_call (fun t => t) (fun _ => some [2])
    (fun _ _ => 0) (fun _ _ => 0) false ⟨[]⟩ [] ['r'] none none 5 (1 / 2)
    [2] rfl (by decide)

lemma mkResult_similarity (r : CodeRow) (s : ℚ) :
    (mkResult r s).similarity = s := rfl

lemma distLE_trans (dist : Vec → Vec → ℚ) (q : Vec) :
    ∀ a b c : CodeRow,
      decide (dist a.code_embedding q ≤ dist b.code_embedding q) = true →
      decide (dist b.code_embedding q ≤ dist c.code_embedding q) = true →
      decide (dist a.code_embedding q ≤ dist c.code_embedding q) = true := by
  intro a b c hab hbc
  simp only [decide_eq_true_eq] at hab hbc ⊢
  exact le_trans hab hbc

lemma distLE_total (dist : Vec → Vec → ℚ) (q : Vec) :
    ∀ a b : CodeRow,
      (decide (dist a.code_embedding q ≤ dist b.code_embedding q) ||
        decide (dist b.code_embedding q ≤ dist a.code_embedding q)) = true := by
  intro a b
  simp only [Bool.or_eq_true, decide_eq_true_eq]
  exact le_total _ _

lemma simLE_trans (sim : Vec → Vec → ℚ) (q : Vec) :
    ∀ a b c : CodeRow,
      decide (sim q b.code_embedding ≤ sim q a.code_embedding) = true →
      decide (sim q c.code_embedding ≤ sim q b.code_embedding) = true →
      decide (sim q c.code_embedding ≤ sim q a.code_embedding) = true := by
  intro a b c hab hbc
  simp only [decide_eq_true_eq] at hab hbc ⊢
  exact le_trans hbc hab

lemma simLE_total (sim : Vec → Vec → ℚ) (q : Vec) :
    ∀ a b : CodeRow,
      (decide (sim q b.code_embedding ≤ sim q a.code_embedding) ||
        decide (sim q a.code_embedding ≤ sim q b.code_embedding)) = true := by
  intro a b
  simp only [Bool.or_eq_true, decide_eq_true_eq]
  exact le_total _ _

lemma acceleratedSearch_threshold (dist : Vec → Vec → ℚ) (db : List CodeRow)
    (q : Vec) (project_id language : Option PyStr) (limit : ℕ) (τ : ℚ) :
    ∀ x ∈ acceleratedSearch dist db q project_id language limit τ,
      τ ≤ x.similarity := by
  intro x hx
  simp only [acceleratedSearch, List.mem_filterMap] at hx
  obtain ⟨r, _, hr⟩ := hx
  by_cases h : τ ≤ 1 - dist r.code_embedding q
  · rw [if_pos h] at hr
    rw [← Option.some.inj hr, mkResult_similarity]
    exact h
  · rw [if_neg h] at hr
    exact Option.noConfusion hr

lemma acceleratedSearch_sorted (dist : Vec → Vec → ℚ) (db : List CodeRow)
    (q : Vec) (project_id language : Option PyStr) (limit : ℕ) (τ : ℚ) :
    (acceleratedSearch dist db q project_id language limit τ).Pairwise
      (fun a b => b.similarity ≤ a.similarity) := by
  unfold acceleratedSearch
  apply List.pairwise_filterMap.mpr
  apply List.Pairwise.imp ?_
    (List.Pairwise.sublist (List.take_sublist _ _)
      (List.sorted_mergeSort (distLE_trans dist q) (distLE_total dist q) _))
  intro r r' hle b hb b' hb'
  by_cases h1 : τ ≤ 1 - dist r.code_embedding q
  · rw [if_pos h1] at hb
    by_cases h2 : τ ≤ 1 - dist r'.code_embedding q
    · rw [if_pos h2] at hb'
      rw [Option.mem_some_iff] at hb hb'
      rw [← hb, ← hb', mkResult_similarity, mkResult_similarity]
      simp only [decide_eq_true_eq] at hle
      linarith
    · rw [if_neg h2] at hb'
      exact absurd hb' (Option.not_mem_none b')
  · rw [if_neg h1] at hb
    exact absurd hb (Option.not_mem_none b)

lemma fallback_similarity_search_threshold (sim : Vec → Vec → ℚ)
    (db : List CodeRow) (q : Vec) (project_id language : Option PyStr)
    (limit : ℕ) (τ : ℚ) :
    ∀ x ∈ fallback_similarity_search sim db q project_id language limit τ,
      τ ≤ x.similarity := by
  intro x hx
  simp only [fallback_similarity_search, List.mem_map] at hx
  obtain ⟨r, hr, rfl⟩ := hx
  have h1 := List.mem_mergeSort.mp (List.mem_of_mem_take hr)
  have h2 := List.of_mem_filter h1
  simp only [decide_eq_true_eq] at h2
  rw [mkResult_similarity]
  exact h2

lemma fallback_similarity_search_sorted (sim : Vec → Vec → ℚ)
    (db : List CodeRow) (q : Vec) (project_id language : Option PyStr)
    (limit : ℕ) (τ : ℚ) :
    (fallback_similarity_search sim db q project_id language limit τ).Pairwise
      (fun a b => b.similarity ≤ a.similarity) := by
  unfold fallback_similarity_search
  apply List.pairwise_map.mpr
  apply List.Pairwise.imp ?_
    (List.Pairwise.sublist (List.take_sublist _ _)
      (List.sorted_mergeSort (simLE_trans sim q) (simLE_total sim q) _))
  intro a b h
  simp only [decide_eq_true_eq] at h
  rw [mkResult_similarity, mkResult_similarity]
  exact h

/-- C2: every returned result of a search call, on either retrieval path,
has similarity at least the threshold, and the result list is sorted in
non-increasing order of similarity. -/
theorem search_results_thresholded_and_sorted (hash : PyStr → PyStr)
    (provider : PyStr → Option Vec) (dist sim : Vec → Vec → ℚ)
    (vecAvailable : Bool) (svc : EmbeddingService) (db : List CodeRow)
    (query : PyStr) (project_id language : Option PyStr) (limit : ℕ)
    (threshold : ℚ) :
    (∀ x ∈ (search_similar_code hash provider dist sim vecAvailable svc db
      query project_id language limit threshold).results,
        threshold ≤ x.similarity) ∧
      ((search_similar_code hash provider dist sim vecAvailable svc db query
        project_id language limit threshold).results).Pairwise
        (fun a b => b.similarity ≤ a.similarity) := by
  simp only [search_similar_code]
  rcases he : (embed_single hash provider svc query).1 with _ | qe
  · simp
  · by_cases hqe : qe = []
    · simp [hqe]
    · cases vecAvailable
      · simp only [if_neg hqe, Bool.false_eq_true, if_false]
        exact ⟨fallback_similarity_search_threshold sim db qe project_id
            language limit threshold,
          fallback_similarity_search_sorted sim db qe project_id language
            limit threshold⟩
      · simp only [if_neg hqe, if_true]
        exact ⟨acceleratedSearch_threshold dist db qe project_id language
            limit threshold,
          acceleratedSearch_sorted dist db qe project_id language limit
            threshold⟩

lemma append_eq_append_of_pred {α : Type} (pred : α → Bool) :
    ∀ (s₁ s₂ t₁ t₂ : List α), s₁ ++ s₂ = t₁ ++ t₂ →
      (∀ x ∈ s₁, pred x = true) → (∀ x ∈ s₂, pred x = false) →
      (∀ x ∈ t₁, pred x = true) → (∀ x ∈ t₂, pred x = false) →
      s₁ = t₁ := by
  intro s₁
  induction s₁ with
  | nil =>
      intro s₂ t₁ t₂ heq _ h2 h3 _
      cases t₁ with
      | nil => rfl
      | cons y t₁ =>
          simp only [List.nil_append] at heq
          have hy : y ∈ s₂ := by rw [heq]; simp
          have hf := h2 y hy
          rw [h3 y (by simp)] at hf
          exact Bool.noConfusion hf
  | cons x s₁ ih =>
      intro s₂ t₁ t₂ heq h1 h2 h3 h4
      cases t₁ with
      | nil =>
          simp only [List.nil_append] at heq
          have hx : x ∈ t₂ := by rw [← heq]; simp
          have hf := h4 x hx
          rw [h1 x (by simp)] at hf
          exact Bool.noConfusion hf
      | cons y t₁ =>
          simp only [List.cons_append, List.cons.injEq] at heq
          obtain ⟨rfl, heq2⟩ := heq
          rw [ih s₂ t₁ t₂ heq2 (fun z hz => h1 z (by simp [hz])) h2
            (fun z hz => h3 z (by simp [hz])) h4]

lemma mergeSort_filter_comm {α : Type} (le : α → α → Bool)
    (htrans : ∀ a b c, le a b = true → le b c = true → le a c = true)
    (htotal : ∀ a b, (le a b || le b a) = true) (p : α → Bool) :
    ∀ l : List α, (l.filter p).mergeSort le = (l.mergeSort le).filter p := by
  intro l
  induction l with
  | nil => simp
  | cons a l ih =>
      obtain ⟨l₁, l₂, hsplit, hrest, hl₁⟩ :=
        List.mergeSort_cons htrans htotal a l
      have hsortedl :
          List.Pairwise (fun x y => le x y = true) (l₁ ++ a :: l₂) := by
        rw [← hsplit]
        exact List.sorted_mergeSort htrans htotal _
      have hal₂ : ∀ x ∈ l₂, le a x = true := fun x hx =>
        List.rel_of_pairwise_cons (List.pairwise_append.mp hsortedl).2.1 hx
      by_cases hpa : p a = true
      · obtain ⟨m₁, m₂, hmsplit, hmrest, hm₁⟩ :=
          List.mergeSort_cons htrans htotal a (l.filter p)
        have hsortedm :
            List.Pairwise (fun x y => le x y = true) (m₁ ++ a :: m₂) := by
          rw [← hmsplit]
          exact List.sorted_mergeSort htrans htotal _
        have ham₂ : ∀ x ∈ m₂, le a x = true := fun x hx =>
          List.rel_of_pairwise_cons (List.pairwise_append.mp hsortedm).2.1 hx
        rw [List.filter_cons_of_pos hpa, hmsplit, hsplit,
          List.filter_append, List.filter_cons_of_pos hpa]
        have hmm : m₁ ++ m₂ = l₁.filter p ++ l₂.filter p := by
          calc m₁ ++ m₂ = (l.filter p).mergeSort le := hmrest.symm
            _ = (l.mergeSort le).filter p := ih
            _ = (l₁ ++ l₂).filter p := by rw [hrest]
            _ = l₁.filter p ++ l₂.filter p := List.filter_append _ _
        have h1 : m₁ = l₁.filter p :=
          append_eq_append_of_pred (fun x => !(le a x)) m₁ m₂
            (l₁.filter p) (l₂.filter p) hmm hm₁
            (fun x hx => by
              show (!(le a x)) = false
              rw [ham₂ x hx]
              rfl)
            (fun x hx => hl₁ x (List.mem_of_mem_filter hx))
            (fun x hx => by
              show (!(le a x)) = false
              rw [hal₂ x (List.mem_of_mem_filter hx)]
              rfl)
        have h2 : m₂ = l₂.filter p := by
          rw [h1] at hmm
          exact List.append_cancel_left hmm
        rw [h1, h2]
      · have hpa2 : p a = false := by
          revert hpa; cases p a <;> simp
        rw [List.filter_cons_of_neg (by simp [hpa2]), ih, hsplit, hrest,
          List.filter_append, List.filter_append,
          List.filter_cons_of_neg (by simp [hpa2])]

lemma filterMap_take_eq_map_take_filter {α β : Type} (le : α → α → Bool)
    (p : α → Bool) (f : α → β) (g : α → Option β)
    (hg : ∀ a, p a = true → g a = some (f a))
    (hg2 : ∀ a, p a = false → g a = none)
    (hmono : ∀ a b, le a b = true → p b = true → p a = true) :
    ∀ (l : List α) (n : ℕ), List.Pairwise (fun a b => le a b = true) l →
      (l.take n).filterMap g = ((l.filter p).take n).map f := by
  intro l
  induction l with
  | nil => intro n _; simp
  | cons a l ih =>
      intro n hp
      cases n with
      | zero => simp
      | succ n =>
          rw [List.take_succ_cons]
          by_cases hpa : p a = true
          · rw [List.filter_cons_of_pos hpa, List.take_succ_cons,
              List.map_cons, List.filterMap_cons, hg a hpa,
              ih n hp.of_cons]
          · have hpa2 : p a = false := by
              revert hpa; cases p a <;> simp
            have hall : ∀ b ∈ l, p b = false := by
              intro b hb
              by_cases h : p b = true
              · exact absurd
                  (hmono a b (List.rel_of_pairwise_cons hp hb) h)
                  (by simp [hpa2])
              · revert h; cases p b <;> simp
            rw [List.filter_cons_of_neg (by simp [hpa2])]
            have hfl : l.filter p = [] := by
              rw [List.filter_eq_nil_iff]
              intro b hb
              simp [hall b hb]
            rw [hfl]
            simp only [List.take_nil, List.map_nil]
            apply List.filterMap_eq_nil_iff.mpr
            intro x hx
            rcases List.mem_cons.mp hx with rfl | hx2
            · exact hg2 x hpa2
            · exact hg2 x (hall x (List.mem_of_mem_take hx2))

/-- C1: for identical stored data, identical query vector, and the same
filters, limit and threshold, the accelerated retrieval path and the
fallback path return the same results — the same keys in the same order
with the same similarities — given the defining relation between cosine
distance and cosine similarity (`dist u v = 1 - sim v u`), which holds
exactly in real arithmetic and within floating-point epsilon in the
implementation. -/
theorem accelerated_fallback_agree (dist sim : Vec → Vec → ℚ)
    (db : List CodeRow) (q : Vec) (project_id language : Option PyStr)
    (limit : ℕ) (threshold : ℚ)
    (hlink : ∀ u v : Vec, dist u v = 1 - sim v u) :
    acceleratedSearch dist db q project_id language limit threshold =
      fallback_similarity_search sim db q project_id language limit
        threshold := by
  unfold acceleratedSearch fallback_similarity_search
  have hle : (fun r1 r2 : CodeRow =>
      decide (dist r1.code_embedding q ≤ dist r2.code_embedding q)) =
      (fun r1 r2 : CodeRow =>
        decide (sim q r2.code_embedding ≤ sim q r1.code_embedding)) := by
    funext r1 r2
    rw [hlink, hlink]
    apply decide_eq_decide.mpr
    constructor <;> intro h <;> linarith
  rw [hle,
    mergeSort_filter_comm _ (simLE_trans sim q) (simLE_total sim q)
      (fun r => decide (threshold ≤ sim q r.code_embedding))]
  exact filterMap_take_eq_map_take_filter
    (fun r1 r2 => decide (sim q r2.code_embedding ≤ sim q r1.code_embedding))
    (fun r => decide (threshold ≤ sim q r.code_embedding))
    (fun r => mkResult r (sim q r.code_embedding))
    (fun r =>
      if threshold ≤ 1 - dist r.code_embedding q then
        some (mkResult r (1 - dist r.code_embedding q))
      else none)
    (fun r hr => by
      have h2 : threshold ≤ sim q r.code_embedding := of_decide_eq_true hr
      show (if threshold ≤ 1 - dist r.code_embedding q then
          some (mkResult r (1 - dist r.code_embedding q))
        else none) = some (mkResult r (sim q r.code_embedding))
      rw [hlink]
      rw [if_pos (by linarith)]
      have h3 : 1 - (1 - sim q r.code_embedding) =
          sim q r.code_embedding := by ring
      rw [h3])
    (fun r hr => by
      have h2 : ¬ threshold ≤ sim q r.code_embedding := of_decide_eq_false hr
      show (if threshold ≤ 1 - dist r.code_embedding q then
          some (mkResult r (1 - dist r.code_embedding q))
        else none) = none
      rw [hlink]
      rw [if_neg (fun h => h2 (by linarith))])
    (fun r1 r2 h1 h2 => by
      have h3 : sim q r2.code_embedding ≤ sim q r1.code_embedding :=
        of_decide_eq_true h1
      have h4 : threshold ≤ sim q r2.code_embedding := of_decide_eq_true h2
      exact decide_eq_true (by linarith))
    _ limit
    (List.sorted_mergeSort (simLE_trans sim q) (simLE_total sim q) _)

/-- Witness for C1: a concrete one-row store, with cosine distance and
similarity oracles satisfying the defining relation. -/
theorem accelerated_fallback_agree_witness :
    acceleratedSearch (fun _ _ => 1) [⟨['p', ':', 'a'], [0], ['p', 'y'],
        ['p', 'y'], ['p'], 0, ['c'], ['a'], none, []⟩] [0] none none 10 0 =
      fallback_similarity_search (fun _ _ => 0) [⟨['p', ':', 'a'], [0],
        ['p', 'y'], ['p', 'y'], ['p'], 0, ['c'], ['a'], none, []⟩] [0] none
        none 10 0 :=
  accelerated_fallback_agree (fun _ _ => 1) (fun _ _ => 0)
    [⟨['p', ':', 'a'], [0], ['p', 'y'], ['p', 'y'], ['p'], 0, ['c'], ['a'],
      none, []⟩] [0] none none 10 0 (fun u v => by norm_num)

end Acas
